import Mathlib

/-!
# Verification of the graphtage tree-diff engine (xml.py / tree.py)

A shallow embedding of the parts of the repository that the claims touch:
the `Range` bounds, the `Bounded` edit contract, `XMLElementEdit`
(`bounds`, `edits`, `tighten_bounds`, and the text-edit selection of its
constructor), `XMLElement` (`__eq__`, `edits`, `calculate_total_size`),
the cached `total_size` property of `TreeNode`, the `diff` driver loop,
and `explode_edits`.
-/

set_option autoImplicit false

namespace Graphtage

/-- Modelled from the spec: `Range` from `bounds.py` (absent from the
sources) is a closed integer interval `[lower_bound, upper_bound]`;
addition is componentwise and `definitive()` holds iff the two endpoints
coincide. -/
structure Range where
  lower_bound : Int
  upper_bound : Int
deriving DecidableEq, Repr

/-- Componentwise sum of two ranges, as `Range.__add__`. -/
def Range.add (a b : Range) : Range :=
  ⟨a.lower_bound + b.lower_bound, a.upper_bound + b.upper_bound⟩

instance : Add Range := ⟨Range.add⟩

/-- `Range.definitive()`: the interval has collapsed to a point. -/
def Range.definitive (r : Range) : Prop :=
  r.lower_bound = r.upper_bound

instance (r : Range) : Decidable r.definitive := by
  unfold Range.definitive; infer_instance

/-- A range is well formed when its lower bound does not exceed its
upper bound. -/
def Range.WF (r : Range) : Prop :=
  r.lower_bound ≤ r.upper_bound

instance (r : Range) : Decidable r.WF := by
  unfold Range.WF; infer_instance

/-- `b` is a strict narrowing of `a`: a subinterval that lost at least
one unit on some side. -/
def Range.narrows (b a : Range) : Prop :=
  a.lower_bound ≤ b.lower_bound ∧ b.upper_bound ≤ a.upper_bound ∧
    (a.lower_bound < b.lower_bound ∨ b.upper_bound < a.upper_bound)

instance (b a : Range) : Decidable (b.narrows a) := by
  unfold Range.narrows; infer_instance

/-- Modelled from the spec: a `Bounded` edit (`Edit` of `edits.py`,
absent from the sources) exposes current bounds, a `valid` flag, and a
`tighten_bounds()` step.  We represent the edit by its current bounds
together with the descending chain of bounds that its future tighten
steps will produce, which is exactly the observable behaviour the
`Bounded` contract of the spec allows. -/
structure BEdit where
  valid : Bool
  cur : Range
  future : List Range
deriving DecidableEq, Repr

/-- `bounds()` of a modelled edit. -/
def BEdit.bounds (e : BEdit) : Range := e.cur

/-- `tighten_bounds()` of a modelled edit: perform the next pending
narrowing step and report `true`, or report `false` when no work
remains. -/
def BEdit.tighten_bounds (e : BEdit) : Bool × BEdit :=
  match e.future with
  | [] => (false, e)
  | r :: rest => (true, ⟨e.valid, r, rest⟩)

/-- The chain of future bounds respects the `Bounded` contract of the
spec: every step strictly narrows its predecessor, every range is well
formed, and once no step remains the bounds are definitive. -/
def chainWF : Range → List Range → Prop
  | r, [] => r.WF ∧ r.definitive
  | r, s :: rest => r.WF ∧ s.narrows r ∧ chainWF s rest

instance chainWF_dec : (r : Range) → (l : List Range) → Decidable (chainWF r l)
  | _, [] => by unfold chainWF; infer_instance
  | r, s :: rest =>
    have : Decidable (chainWF s rest) := chainWF_dec s rest
    by unfold chainWF; infer_instance

/-- A modelled edit obeying the `Bounded` contract. -/
def BEdit.WF (e : BEdit) : Prop := chainWF e.cur e.future

instance (e : BEdit) : Decidable e.WF := by
  unfold BEdit.WF; infer_instance

/-- Under the contract, a definitive well-formed edit has no pending
step: its `tighten_bounds` returns `false`. -/
theorem BEdit.tighten_false_of_definitive (e : BEdit) (hwf : e.WF)
    (hdef : e.cur.definitive) : (e.tighten_bounds).1 = false := by
  cases e with
  | mk v c f =>
    cases f with
    | nil => rfl
    | cons s rest =>
      exfalso
      rcases hwf with ⟨hw, hn, hrest⟩
      have hsw : s.WF := by
        cases rest with
        | nil => exact hrest.1
        | cons t rest' => exact hrest.1
      rcases hn with ⟨h1, h2, h3⟩
      simp only [Range.definitive] at hdef
      simp only [Range.WF] at hsw
      dsimp only at hdef h1 h2 h3
      omega

/-- Under the contract, a non-definitive edit has a pending step: its
`tighten_bounds` returns `true`. -/
theorem BEdit.tighten_true_of_not_definitive (e : BEdit) (hwf : e.WF)
    (hdef : ¬ e.cur.definitive) : (e.tighten_bounds).1 = true := by
  cases e with
  | mk v c f =>
    cases f with
    | nil =>
      exfalso
      exact hdef hwf.2
    | cons s rest => rfl

/-- A `tighten_bounds` that reports `false` leaves the edit unchanged. -/
theorem BEdit.tighten_snd_of_false (e : BEdit)
    (h : (e.tighten_bounds).1 = false) : (e.tighten_bounds).2 = e := by
  cases e with
  | mk v c f =>
    cases f with
    | nil => rfl
    | cons s rest => simp [BEdit.tighten_bounds] at h

/-- A `tighten_bounds` that reports `true` strictly narrows the bounds
of a contract-conforming edit. -/
theorem BEdit.tighten_narrows (e : BEdit) (hwf : e.WF)
    (h : (e.tighten_bounds).1 = true) :
    ((e.tighten_bounds).2).cur.narrows e.cur := by
  cases e with
  | mk v c f =>
    cases f with
    | nil => simp [BEdit.tighten_bounds] at h
    | cons s rest => exact hwf.2.1

/-- Embedding of `XMLElementEdit` from `xml.py`: a compound edit holding
the tag, attribute, optional text, and child sub-edits, each modelled by
the `Bounded` contract as a `BEdit`. -/
structure XMLElementEdit where
  tag_edit : BEdit
  attrib_edit : BEdit
  text_edit : Option BEdit
  child_edit : BEdit
deriving DecidableEq, Repr

/-- `XMLElementEdit.bounds` from `xml.py`: the text bounds (or `[0, 0]`
when there is no text edit) plus the tag, attribute, and child
bounds. -/
def XMLElementEdit.bounds (e : XMLElementEdit) : Range :=
  let text_bounds :=
    match e.text_edit with
    | some te => te.bounds
    | none => Range.mk 0 0
  text_bounds + e.tag_edit.bounds + e.attrib_edit.bounds + e.child_edit.bounds

/-- `XMLElementEdit.edits` from `xml.py`: yield the tag edit, the
attribute edit, the text edit when present, then the child edit. -/
def XMLElementEdit.editsList (e : XMLElementEdit) : List BEdit :=
  [e.tag_edit, e.attrib_edit] ++
    (match e.text_edit with
     | some te => [te]
     | none => []) ++ [e.child_edit]

/-- The attrib-then-child tail of `XMLElementEdit.tighten_bounds`. -/
def XMLElementEdit.tightenAttribChild (e : XMLElementEdit) :
    Bool × XMLElementEdit :=
  match e.attrib_edit.tighten_bounds with
  | (true, a2) => (true, { e with attrib_edit := a2 })
  | (false, _) =>
    match e.child_edit.tighten_bounds with
    | (true, c2) => (true, { e with child_edit := c2 })
    | (false, _) => (false, e)

/-- `XMLElementEdit.tighten_bounds` from `xml.py`: try the tag edit,
then the text edit when present, then the attribute edit, then the
child edit; return `true` at the first sub-tighten that succeeds and
`false` when all fail. -/
def XMLElementEdit.tighten_bounds (e : XMLElementEdit) :
    Bool × XMLElementEdit :=
  match e.tag_edit.tighten_bounds with
  | (true, t2) => (true, { e with tag_edit := t2 })
  | (false, _) =>
    match e.text_edit with
    | some te =>
      match te.tighten_bounds with
      | (true, te2) => (true, { e with text_edit := some te2 })
      | (false, _) => e.tightenAttribChild
    | none => e.tightenAttribChild

/-- An optional sub-edit obeys the `Bounded` contract when present. -/
def OptionBEditWF : Option BEdit → Prop
  | none => True
  | some te => te.WF

instance : (o : Option BEdit) → Decidable (OptionBEditWF o)
  | none => by unfold OptionBEditWF; infer_instance
  | some te => by unfold OptionBEditWF; infer_instance

theorem OptionBEditWF.of_some {o : Option BEdit} (h : OptionBEditWF o)
    {te : BEdit} (he : o = some te) : te.WF := by
  subst he
  exact h

/-- All four sub-edit slots of an `XMLElementEdit` obey the `Bounded`
contract. -/
def XMLElementEdit.subsWF (e : XMLElementEdit) : Prop :=
  e.tag_edit.WF ∧ OptionBEditWF e.text_edit ∧
    e.attrib_edit.WF ∧ e.child_edit.WF

instance (e : XMLElementEdit) : Decidable e.subsWF := by
  unfold XMLElementEdit.subsWF; infer_instance

/-- Some sub-edit of the compound has a present, non-definitive text
edit. -/
def XMLElementEdit.textNonDef (e : XMLElementEdit) : Prop :=
  ∃ te, e.text_edit = some te ∧ ¬ te.cur.definitive

/-- Some sub-edit of the compound is non-definitive. -/
def XMLElementEdit.someNonDef (e : XMLElementEdit) : Prop :=
  ¬ e.tag_edit.cur.definitive ∨ e.textNonDef ∨
    ¬ e.attrib_edit.cur.definitive ∨ ¬ e.child_edit.cur.definitive

/-- For a contract-conforming edit, having no pending step is the same
as being definitive. -/
theorem BEdit.future_nil_iff_def (e : BEdit) (hwf : e.WF) :
    e.future = [] ↔ e.cur.definitive := by
  constructor
  · intro h
    cases e with
    | mk v c f =>
      subst h
      exact hwf.2
  · intro h
    cases e with
    | mk v c f =>
      cases f with
      | nil => rfl
      | cons s rest =>
        have := BEdit.tighten_false_of_definitive ⟨v, c, s :: rest⟩ hwf h
        simp [BEdit.tighten_bounds] at this

theorem xmlTightenTagStep (e : XMLElementEdit)
    (hw : e.tag_edit.WF) (h : ¬ e.tag_edit.cur.definitive) :
    e.tighten_bounds = (true, { e with tag_edit := (e.tag_edit.tighten_bounds).2 }) := by
  obtain ⟨tag, a, t, c⟩ := e
  rcases tag with ⟨v, cur, f⟩
  cases f with
  | nil => exact absurd hw.2 h
  | cons s rest => rfl

theorem xmlTightenTextStep (e : XMLElementEdit)
    (hwtag : e.tag_edit.WF) (hdtag : e.tag_edit.cur.definitive)
    (te : BEdit) (ht : e.text_edit = some te)
    (hwte : te.WF) (hnd : ¬ te.cur.definitive) :
    e.tighten_bounds = (true, { e with text_edit := some (te.tighten_bounds).2 }) := by
  obtain ⟨tag, a, t, c⟩ := e
  have htagf : tag.future = [] := (BEdit.future_nil_iff_def tag hwtag).2 hdtag
  rcases tag with ⟨v, cur, f⟩
  dsimp only at htagf ht
  subst htagf
  subst ht
  rcases te with ⟨v2, cur2, f2⟩
  cases f2 with
  | nil => exact absurd hwte.2 hnd
  | cons s rest => rfl

theorem xmlTightenAttribStep (e : XMLElementEdit)
    (hwtag : e.tag_edit.WF) (hdtag : e.tag_edit.cur.definitive)
    (hwtext : ∀ te, e.text_edit = some te → te.WF) (hnt : ¬ e.textNonDef)
    (hwa : e.attrib_edit.WF) (hna : ¬ e.attrib_edit.cur.definitive) :
    e.tighten_bounds = (true, { e with attrib_edit := (e.attrib_edit.tighten_bounds).2 }) := by
  obtain ⟨tag, a, t, c⟩ := e
  have htagf : tag.future = [] := (BEdit.future_nil_iff_def tag hwtag).2 hdtag
  rcases tag with ⟨v, cur, f⟩
  dsimp only at htagf
  subst htagf
  have hstep : XMLElementEdit.tighten_bounds ⟨⟨v, cur, []⟩, a, t, c⟩ =
      XMLElementEdit.tightenAttribChild ⟨⟨v, cur, []⟩, a, t, c⟩ := by
    cases t with
    | none => rfl
    | some te =>
      have hwte2 : te.WF := hwtext te rfl
      have hdte : te.cur.definitive := by
        by_contra hc
        exact hnt ⟨te, rfl, hc⟩
      have htef : te.future = [] := (BEdit.future_nil_iff_def te hwte2).2 hdte
      rcases te with ⟨v2, cur2, f2⟩
      dsimp only at htef
      subst htef
      rfl
  rw [hstep]
  rcases a with ⟨va, ca, fa⟩
  cases fa with
  | nil => exact absurd hwa.2 hna
  | cons s rest => rfl

theorem xmlTightenChildStep (e : XMLElementEdit)
    (hwtag : e.tag_edit.WF) (hdtag : e.tag_edit.cur.definitive)
    (hwtext : ∀ te, e.text_edit = some te → te.WF) (hnt : ¬ e.textNonDef)
    (hwa : e.attrib_edit.WF) (hda : e.attrib_edit.cur.definitive)
    (hwc : e.child_edit.WF) (hnc : ¬ e.child_edit.cur.definitive) :
    e.tighten_bounds = (true, { e with child_edit := (e.child_edit.tighten_bounds).2 }) := by
  obtain ⟨tag, a, t, c⟩ := e
  have htagf : tag.future = [] := (BEdit.future_nil_iff_def tag hwtag).2 hdtag
  have haf : a.future = [] := (BEdit.future_nil_iff_def a hwa).2 hda
  rcases tag with ⟨v, cur, f⟩
  dsimp only at htagf
  subst htagf
  have hstep : XMLElementEdit.tighten_bounds ⟨⟨v, cur, []⟩, a, t, c⟩ =
      XMLElementEdit.tightenAttribChild ⟨⟨v, cur, []⟩, a, t, c⟩ := by
    cases t with
    | none => rfl
    | some te =>
      have hwte2 : te.WF := hwtext te rfl
      have hdte : te.cur.definitive := by
        by_contra hc
        exact hnt ⟨te, rfl, hc⟩
      have htef : te.future = [] := (BEdit.future_nil_iff_def te hwte2).2 hdte
      rcases te with ⟨v2, cur2, f2⟩
      dsimp only at htef
      subst htef
      rfl
  rw [hstep]
  rcases a with ⟨va, ca, fa⟩
  dsimp only at haf
  subst haf
  rcases c with ⟨vc, cc, fc⟩
  cases fc with
  | nil => exact absurd hwc.2 hnc
  | cons s rest => rfl

theorem xmlTightenAllDef (e : XMLElementEdit)
    (hwtag : e.tag_edit.WF) (hdtag : e.tag_edit.cur.definitive)
    (hwtext : ∀ te, e.text_edit = some te → te.WF) (hnt : ¬ e.textNonDef)
    (hwa : e.attrib_edit.WF) (hda : e.attrib_edit.cur.definitive)
    (hwc : e.child_edit.WF) (hdc : e.child_edit.cur.definitive) :
    e.tighten_bounds = (false, e) := by
  obtain ⟨tag, a, t, c⟩ := e
  have htagf : tag.future = [] := (BEdit.future_nil_iff_def tag hwtag).2 hdtag
  have haf : a.future = [] := (BEdit.future_nil_iff_def a hwa).2 hda
  have hcf : c.future = [] := (BEdit.future_nil_iff_def c hwc).2 hdc
  rcases tag with ⟨v, cur, f⟩
  dsimp only at htagf
  subst htagf
  have hstep : XMLElementEdit.tighten_bounds ⟨⟨v, cur, []⟩, a, t, c⟩ =
      XMLElementEdit.tightenAttribChild ⟨⟨v, cur, []⟩, a, t, c⟩ := by
    cases t with
    | none => rfl
    | some te =>
      have hwte2 : te.WF := hwtext te rfl
      have hdte : te.cur.definitive := by
        by_contra hc2
        exact hnt ⟨te, rfl, hc2⟩
      have htef : te.future = [] := (BEdit.future_nil_iff_def te hwte2).2 hdte
      rcases te with ⟨v2, cur2, f2⟩
      dsimp only at htef
      subst htef
      rfl
  rw [hstep]
  rcases a with ⟨va, ca, fa⟩
  dsimp only at haf
  subst haf
  rcases c with ⟨vc, cc, fc⟩
  dsimp only at hcf
  subst hcf
  rfl

/-- C1 (counterexample): at this concrete compound edit the first
sub-edit in the `edits()` iteration order (tag, attrib, text, child)
with non-definitive bounds is the attribute edit, yet `tighten_bounds`
returns `true` while leaving the attribute edit unchanged; it narrows
the text edit instead, because the source tries the text edit before
the attribute edit. -/
theorem C1_counterexample :
    let tagE : BEdit := ⟨true, ⟨0, 0⟩, []⟩
    let attribE : BEdit := ⟨true, ⟨0, 2⟩, [⟨1, 1⟩]⟩
    let textE : BEdit := ⟨true, ⟨0, 3⟩, [⟨2, 2⟩]⟩
    let childE : BEdit := ⟨true, ⟨0, 0⟩, []⟩
    let e : XMLElementEdit := ⟨tagE, attribE, some textE, childE⟩
    e.subsWF ∧ e.tag_edit.cur.definitive ∧ ¬ e.attrib_edit.cur.definitive ∧
      (e.tighten_bounds).1 = true ∧
      (e.tighten_bounds).2.attrib_edit = e.attrib_edit ∧
      (e.tighten_bounds).2.text_edit ≠ e.text_edit := by
  decide

/-- C1 (amended): for every `XMLElementEdit` whose sub-edits obey the
`Bounded` contract, `tighten_bounds` tightens exactly the first sub-edit
in the order tag edit, text edit (when present), attribute edit, child
edit whose bounds are non-definitive, strictly narrowing that sub-edit's
bounds and leaving the others unchanged, and it returns `true` if and
only if such a sub-edit exists. -/
theorem C1_tighten_first_nondefinitive (e : XMLElementEdit)
    (hwf : e.subsWF) :
    ((e.tighten_bounds).1 = true ↔ e.someNonDef) ∧
    (¬ e.tag_edit.cur.definitive →
      e.tighten_bounds = (true, { e with tag_edit := (e.tag_edit.tighten_bounds).2 }) ∧
      (e.tag_edit.tighten_bounds).2.cur.narrows e.tag_edit.cur) ∧
    (e.tag_edit.cur.definitive →
      ∀ te, e.text_edit = some te → ¬ te.cur.definitive →
        e.tighten_bounds = (true, { e with text_edit := some (te.tighten_bounds).2 }) ∧
        (te.tighten_bounds).2.cur.narrows te.cur) ∧
    (e.tag_edit.cur.definitive → ¬ e.textNonDef →
      ¬ e.attrib_edit.cur.definitive →
      e.tighten_bounds = (true, { e with attrib_edit := (e.attrib_edit.tighten_bounds).2 }) ∧
      (e.attrib_edit.tighten_bounds).2.cur.narrows e.attrib_edit.cur) ∧
    (e.tag_edit.cur.definitive → ¬ e.textNonDef →
      e.attrib_edit.cur.definitive → ¬ e.child_edit.cur.definitive →
      e.tighten_bounds = (true, { e with child_edit := (e.child_edit.tighten_bounds).2 }) ∧
      (e.child_edit.tighten_bounds).2.cur.narrows e.child_edit.cur) ∧
    (¬ e.someNonDef → e.tighten_bounds = (false, e)) := by
  obtain ⟨hwtag, hwopt, hwa, hwc⟩ := hwf
  have hwtext : ∀ te, e.text_edit = some te → te.WF :=
    fun te ht => OptionBEditWF.of_some hwopt ht
  have hall : ¬ e.someNonDef → e.tighten_bounds = (false, e) := by
    intro hns
    simp only [XMLElementEdit.someNonDef] at hns
    push_neg at hns
    obtain ⟨hd1, hd2, hd3, hd4⟩ := hns
    exact xmlTightenAllDef e hwtag hd1 hwtext hd2 hwa hd3 hwc hd4
  have htrue : e.someNonDef → (e.tighten_bounds).1 = true := by
    intro hs
    by_cases hd1 : e.tag_edit.cur.definitive
    · by_cases hd2 : e.textNonDef
      · obtain ⟨te, ht, hnd⟩ := hd2
        rw [xmlTightenTextStep e hwtag hd1 te ht (hwtext te ht) hnd]
      · by_cases hd3 : e.attrib_edit.cur.definitive
        · by_cases hd4 : e.child_edit.cur.definitive
          · exfalso
            rcases hs with h | h | h | h
            · exact h hd1
            · exact hd2 h
            · exact h hd3
            · exact h hd4
          · rw [xmlTightenChildStep e hwtag hd1 hwtext hd2 hwa hd3 hwc hd4]
        · rw [xmlTightenAttribStep e hwtag hd1 hwtext hd2 hwa hd3]
    · rw [xmlTightenTagStep e hwtag hd1]
  refine ⟨⟨?_, htrue⟩, ?_, ?_, ?_, ?_, hall⟩
  · intro h
    by_contra hns
    rw [hall hns] at h
    simp at h
  · intro hd1
    refine ⟨xmlTightenTagStep e hwtag hd1, ?_⟩
    exact BEdit.tighten_narrows _ hwtag
      (BEdit.tighten_true_of_not_definitive _ hwtag hd1)
  · intro hd1 te ht hnd
    refine ⟨xmlTightenTextStep e hwtag hd1 te ht (hwtext te ht) hnd, ?_⟩
    exact BEdit.tighten_narrows _ (hwtext te ht)
      (BEdit.tighten_true_of_not_definitive _ (hwtext te ht) hnd)
  · intro hd1 hd2 hd3
    refine ⟨xmlTightenAttribStep e hwtag hd1 hwtext hd2 hwa hd3, ?_⟩
    exact BEdit.tighten_narrows _ hwa
      (BEdit.tighten_true_of_not_definitive _ hwa hd3)
  · intro hd1 hd2 hd3 hd4
    refine ⟨xmlTightenChildStep e hwtag hd1 hwtext hd2 hwa hd3 hwc hd4, ?_⟩
    exact BEdit.tighten_narrows _ hwc
      (BEdit.tighten_true_of_not_definitive _ hwc hd4)

/-- Concrete compound edit used to witness `C1_tighten_first_nondefinitive`:
its tag sub-edit still has one pending narrowing step. -/
def exC1w : XMLElementEdit :=
  ⟨⟨true, ⟨0, 4⟩, [⟨1, 3⟩, ⟨2, 2⟩]⟩, ⟨true, ⟨0, 0⟩, []⟩,
    some ⟨true, ⟨0, 3⟩, [⟨2, 2⟩]⟩, ⟨true, ⟨0, 0⟩, []⟩⟩

/-- Witness for C1: the amended theorem applied at `exC1w`, whose
non-definitive tag edit is the one that gets tightened. -/
theorem C1_witness :
    exC1w.subsWF ∧
      exC1w.tighten_bounds =
        (true, { exC1w with tag_edit := (exC1w.tag_edit.tighten_bounds).2 }) :=
  ⟨by decide, ((C1_tighten_first_nondefinitive exC1w (by decide)).2.1 (by decide)).1⟩

/-- C5: `bounds()` of an `XMLElementEdit` is the sum of its sub-edits'
bounds: tag plus attribute plus child plus the text bounds, where a
missing text edit contributes the range `[0, 0]`. -/
theorem C5_bounds_sum (e : XMLElementEdit) :
    e.bounds = e.tag_edit.bounds + e.attrib_edit.bounds + e.child_edit.bounds +
      (match e.text_edit with
       | some te => te.bounds
       | none => Range.mk 0 0) := by
  obtain ⟨tag, a, t, c⟩ := e
  cases t with
  | none =>
    show Range.add (Range.add (Range.add (Range.mk 0 0) _) _) _ = _
    simp only [Range.add, BEdit.bounds]
    show _ = Range.add (Range.add (Range.add _ _) _) _
    simp only [Range.add, Range.mk.injEq]
    omega
  | some te =>
    show Range.add (Range.add (Range.add te.bounds _) _) _ = _
    simp only [Range.add, BEdit.bounds]
    show _ = Range.add (Range.add (Range.add _ _) _) _
    simp only [Range.add, Range.mk.injEq]
    omega

/-- The `while` loop of `TreeNode.diff` from `tree.py`: keep tightening
while the edit is valid, its bounds are not definitive, and
`tighten_bounds()` reports progress; return the edit as left by the
loop. -/
def diffLoop (e : BEdit) : BEdit :=
  if e.valid = true ∧ ¬ e.cur.definitive then
    match h : e.tighten_bounds with
    | (true, e2) => diffLoop e2
    | (false, _) => e
  else e
termination_by e.future.length
decreasing_by
  rcases e with ⟨v, c, f⟩
  cases f with
  | nil => simp [BEdit.tighten_bounds] at h
  | cons r rest =>
    simp only [BEdit.tighten_bounds] at h
    cases h
    simp

/-- The states of the loop of `TreeNode.diff` at which the loop calls
`tighten_bounds`, in order. -/
def diffTrace (e : BEdit) : List BEdit :=
  if e.valid = true ∧ ¬ e.cur.definitive then
    match h : e.tighten_bounds with
    | (true, e2) => e :: diffTrace e2
    | (false, _) => [e]
  else []
termination_by e.future.length
decreasing_by
  rcases e with ⟨v, c, f⟩
  cases f with
  | nil => simp [BEdit.tighten_bounds] at h
  | cons r rest =>
    simp only [BEdit.tighten_bounds] at h
    cases h
    simp

/-- `TreeNode.diff` from `tree.py`, abstracted over how a node builds
its root edit: ask `a` for an edit against `b`, then run the tightening
loop on it. -/
def diffDriver {α : Type} (edits_fn : α → α → BEdit) (a b : α) : BEdit :=
  diffLoop (edits_fn a b)

theorem diffLoop_eq_of_stop (e : BEdit)
    (h : ¬(e.valid = true ∧ ¬ e.cur.definitive)) : diffLoop e = e := by
  unfold diffLoop
  rw [if_neg h]

theorem diffLoop_eq_of_false (e : BEdit)
    (hc : e.valid = true ∧ ¬ e.cur.definitive)
    (hf : (e.tighten_bounds).1 = false) : diffLoop e = e := by
  conv_lhs => rw [diffLoop]
  rw [if_pos hc]
  split
  · rename_i e2 heq
    rw [heq] at hf
    simp at hf
  · rfl

theorem diffLoop_eq_of_true (e : BEdit)
    (hc : e.valid = true ∧ ¬ e.cur.definitive)
    (ht : (e.tighten_bounds).1 = true) :
    diffLoop e = diffLoop (e.tighten_bounds).2 := by
  conv_lhs => rw [diffLoop]
  rw [if_pos hc]
  split
  · rename_i e2 heq
    rw [heq]
  · rename_i e2 heq
    rw [heq] at ht
    simp at ht

theorem diffTrace_eq_of_stop (e : BEdit)
    (h : ¬(e.valid = true ∧ ¬ e.cur.definitive)) : diffTrace e = [] := by
  unfold diffTrace
  rw [if_neg h]

theorem diffTrace_eq_of_false (e : BEdit)
    (hc : e.valid = true ∧ ¬ e.cur.definitive)
    (hf : (e.tighten_bounds).1 = false) : diffTrace e = [e] := by
  conv_lhs => rw [diffTrace]
  rw [if_pos hc]
  split
  · rename_i e2 heq
    rw [heq] at hf
    simp at hf
  · rfl

theorem diffTrace_eq_of_true (e : BEdit)
    (hc : e.valid = true ∧ ¬ e.cur.definitive)
    (ht : (e.tighten_bounds).1 = true) :
    diffTrace e = e :: diffTrace (e.tighten_bounds).2 := by
  conv_lhs => rw [diffTrace]
  rw [if_pos hc]
  split
  · rename_i e2 heq
    rw [heq]
  · rename_i e2 heq
    rw [heq] at ht
    simp at ht

theorem BEdit.tighten_future_lt (e : BEdit)
    (ht : (e.tighten_bounds).1 = true) :
    (e.tighten_bounds).2.future.length < e.future.length := by
  cases e with
  | mk v c f =>
    cases f with
    | nil => simp [BEdit.tighten_bounds] at ht
    | cons r rest => simp [BEdit.tighten_bounds]

theorem BEdit.tighten_WF (e : BEdit) (hwf : e.WF) :
    (e.tighten_bounds).2.WF := by
  cases e with
  | mk v c f =>
    cases f with
    | nil => exact hwf
    | cons r rest => exact hwf.2.2

theorem BEdit.cur_WF (e : BEdit) (hwf : e.WF) : e.cur.WF := by
  cases e with
  | mk v c f =>
    cases f with
    | nil => exact hwf.1
    | cons r rest => exact hwf.1

/-- Every state at which the loop of `TreeNode.diff` calls
`tighten_bounds` is still valid and non-definitive (auxiliary form,
by strong induction on the pending work). -/
theorem diffTrace_mem_aux (n : Nat) :
    ∀ e : BEdit, e.future.length = n →
      ∀ s ∈ diffTrace e, s.valid = true ∧ ¬ s.cur.definitive := by
  induction n using Nat.strong_induction_on with
  | _ n ih =>
    intro e hlen s hs
    by_cases hc : e.valid = true ∧ ¬ e.cur.definitive
    · cases hf : (e.tighten_bounds).1 with
      | false =>
        rw [diffTrace_eq_of_false e hc hf] at hs
        simp only [List.mem_singleton] at hs
        subst hs
        exact hc
      | true =>
        rw [diffTrace_eq_of_true e hc hf] at hs
        rcases List.mem_cons.1 hs with rfl | hs2
        · exact hc
        · have hlt : (e.tighten_bounds).2.future.length < n := by
            rw [← hlen]
            exact BEdit.tighten_future_lt e hf
          exact ih _ hlt (e.tighten_bounds).2 rfl s hs2
    · rw [diffTrace_eq_of_stop e hc] at hs
      simp at hs

/-- The state returned by the loop of `TreeNode.diff` satisfies one of
the three stop conditions (auxiliary form). -/
theorem diffLoop_final_aux (n : Nat) :
    ∀ e : BEdit, e.future.length = n →
      (diffLoop e).valid = false ∨ (diffLoop e).cur.definitive ∨
        ((diffLoop e).tighten_bounds).1 = false := by
  induction n using Nat.strong_induction_on with
  | _ n ih =>
    intro e hlen
    by_cases hc : e.valid = true ∧ ¬ e.cur.definitive
    · cases hf : (e.tighten_bounds).1 with
      | false =>
        rw [diffLoop_eq_of_false e hc hf]
        exact Or.inr (Or.inr hf)
      | true =>
        rw [diffLoop_eq_of_true e hc hf]
        have hlt : (e.tighten_bounds).2.future.length < n := by
          rw [← hlen]
          exact BEdit.tighten_future_lt e hf
        exact ih _ hlt (e.tighten_bounds).2 rfl
    · rw [diffLoop_eq_of_stop e hc]
      rcases Bool.eq_false_or_eq_true e.valid with hv | hv
      · refine Or.inr (Or.inl ?_)
        by_contra hd
        exact hc ⟨hv, hd⟩
      · exact Or.inl hv

/-- The loop of `TreeNode.diff` calls `tighten_bounds` at most
width-plus-one times on a contract-conforming edit (auxiliary form). -/
theorem diffTrace_length_aux (n : Nat) :
    ∀ e : BEdit, e.future.length = n → e.WF →
      (diffTrace e).length ≤
        (e.cur.upper_bound - e.cur.lower_bound).toNat + 1 := by
  induction n using Nat.strong_induction_on with
  | _ n ih =>
    intro e hlen hwf
    by_cases hc : e.valid = true ∧ ¬ e.cur.definitive
    · cases hf : (e.tighten_bounds).1 with
      | false =>
        rw [diffTrace_eq_of_false e hc hf]
        simp
      | true =>
        rw [diffTrace_eq_of_true e hc hf]
        simp only [List.length_cons]
        have hnar := BEdit.tighten_narrows e hwf hf
        have hwf2 := BEdit.tighten_WF e hwf
        have hlt : (e.tighten_bounds).2.future.length < n := by
          rw [← hlen]
          exact BEdit.tighten_future_lt e hf
        have h2 := ih _ hlt (e.tighten_bounds).2 rfl hwf2
        have hcw := BEdit.cur_WF _ hwf2
        rcases hnar with ⟨hn1, hn2, hn3⟩
        simp only [Range.WF] at hcw
        omega
    · rw [diffTrace_eq_of_stop e hc]
      simp

/-- Modelled from the spec: `StringNode` from `graphtage.py` (absent
from the sources) is a string leaf; structural equality compares the
underlying strings and `total_size` is the string length in characters.
The presentation-only `quoted` flag is omitted. -/
structure StringNode where
  object : String
deriving DecidableEq, BEq, Repr

/-- `total_size` of a string leaf: its length in characters. -/
def StringNode.total_size (s : StringNode) : Nat := s.object.length

/-- The whitespace characters stripped by Python's `str.strip()`. -/
def pyIsSpace (c : Char) : Bool :=
  c = ' ' || c = '\t' || c = '\n' || c = '\r' || c = '\x0b' || c = '\x0c'

/-- Python's `str.strip()`: drop leading and trailing whitespace. -/
def pyStrip (s : String) : String :=
  String.mk (((s.data.dropWhile pyIsSpace).reverse.dropWhile pyIsSpace).reverse)

/-- Remove the first occurrence of a key-value pair from an attribute
list, or fail when it does not occur. -/
def removeFirstPair (x : StringNode × StringNode) :
    List (StringNode × StringNode) → Option (List (StringNode × StringNode))
  | [] => none
  | y :: ys =>
    if x = y then some ys
    else
      match removeFirstPair x ys with
      | some ys2 => some (y :: ys2)
      | none => none

/-- Modelled from the spec: structural equality of the attribute
mapping (`DictNode` of `graphtage.py`, absent from the sources) — the
mappings hold the same multiset of key-value pairs. -/
def attribEq : List (StringNode × StringNode) →
    List (StringNode × StringNode) → Bool
  | [], b => b.isEmpty
  | x :: xs, b =>
    match removeFirstPair x b with
    | some b2 => attribEq xs b2
    | none => false

/-- Embedding of `XMLElement` from `xml.py`: a tag leaf, an attribute
mapping, an optional text leaf, and an ordered list of child
elements. -/
inductive XMLElement where
  | mk (tag : StringNode) (attrib : List (StringNode × StringNode))
      (text : Option StringNode) (children : List XMLElement)
deriving Repr

def XMLElement.tag : XMLElement → StringNode
  | .mk t _ _ _ => t

def XMLElement.attrib : XMLElement → List (StringNode × StringNode)
  | .mk _ a _ _ => a

def XMLElement.text : XMLElement → Option StringNode
  | .mk _ _ x _ => x

def XMLElement.childList : XMLElement → List XMLElement
  | .mk _ _ _ c => c

/-- The text string that `XMLElement.__eq__` compares: the stripped
text, or the empty string when the element has no text. -/
def strippedText (x : Option StringNode) : String :=
  match x with
  | none => ""
  | some s => pyStrip s.object

mutual

/-- `XMLElement.__eq__` from `xml.py`: tags, attribute mappings,
whitespace-stripped texts, and child lists must agree. -/
def XMLElement.beq : XMLElement → XMLElement → Bool
  | .mk t1 a1 x1 c1, .mk t2 a2 x2 c2 =>
    (decide (t2 = t1)) && attribEq a2 a1 &&
      (decide (strippedText x2 = strippedText x1)) && childrenBeq c1 c2

/-- Modelled from the spec: `ListNode` equality (`graphtage.py`, absent
from the sources) compares ordered children elementwise. -/
def childrenBeq : List XMLElement → List XMLElement → Bool
  | [], [] => true
  | a :: as, b :: bs => XMLElement.beq a b && childrenBeq as bs
  | _, _ => false

end

/-- Modelled from the spec: `total_size` of the attribute mapping — a
container sums its children, and a key-value pair sums its key and
value leaves. -/
def attribTotalSize (a : List (StringNode × StringNode)) : Nat :=
  (a.map (fun p => p.1.total_size + p.2.total_size)).sum

mutual

/-- `XMLElement.calculate_total_size` from `xml.py`: the text size (0
when absent) plus the tag, attribute, and child-list sizes. -/
def XMLElement.calculate_total_size : XMLElement → Nat
  | .mk t a x c =>
    (match x with
     | none => 0
     | some s => s.total_size) +
      t.total_size + attribTotalSize a + childrenTotalSize c

/-- Modelled from the spec: `total_size` of the child `ListNode` — a
container sums its children. -/
def childrenTotalSize : List XMLElement → Nat
  | [] => 0
  | e :: es => e.calculate_total_size + childrenTotalSize es

end

/-- `TreeNode.total_size` of an immutable element is the value the
cached property computes, `calculate_total_size`. -/
def XMLElement.total_size (e : XMLElement) : Nat :=
  e.calculate_total_size

/-- Modelled from the spec: `Match(a, b, cost)` from `edits.py` (absent
from the sources). -/
structure MatchEdit where
  from_node : XMLElement
  to_node : XMLElement
  cost : Int

/-- Modelled from the spec: the bounds of a `Match` are
`[cost, cost]`. -/
def MatchEdit.bounds (m : MatchEdit) : Range :=
  ⟨m.cost, m.cost⟩

/-- The edit returned by `XMLElement.edits`: either a `Match` or an
`XMLElementEdit` compound between the two elements. -/
inductive XMLNodeEdit where
  | matched (m : MatchEdit)
  | compound (from_node to_node : XMLElement)

/-- `XMLElement.edits` from `xml.py`: a zero-cost `Match` when the two
elements are structurally equal, an `XMLElementEdit` otherwise. -/
def XMLElement.edits (a b : XMLElement) : XMLNodeEdit :=
  if a.beq b then .matched ⟨a, b, 0⟩ else .compound a b

/-- C2 (counterexample): two elements with equal tags, attributes, and
children whose texts differ only by a leading space compare equal under
`XMLElement.__eq__`, because the source strips whitespace from the
texts before comparing them. -/
theorem C2_counterexample :
    let a : XMLElement := .mk ⟨"x"⟩ [] (some ⟨" t"⟩) []
    let b : XMLElement := .mk ⟨"x"⟩ [] (some ⟨"t"⟩) []
    a.tag = b.tag ∧ a.attrib = b.attrib ∧ a.childList = b.childList ∧
      a.text ≠ b.text ∧ XMLElement.beq a b = true := by
  exact ⟨rfl, rfl, rfl, by decide, by decide⟩

/-- C2 (amended): `XMLElement.__eq__` is whitespace-insensitive on the
text: it returns `true` exactly when the tags agree, the attribute
mappings agree, the texts agree after stripping leading and trailing
whitespace (a missing text counting as the empty string), and the child
lists agree; texts differing only in leading or trailing whitespace
therefore compare equal. -/
theorem C2_eq_strips_text (a b : XMLElement) :
    XMLElement.beq a b = true ↔
      b.tag = a.tag ∧ attribEq b.attrib a.attrib = true ∧
        strippedText b.text = strippedText a.text ∧
        childrenBeq a.childList b.childList = true := by
  cases a with
  | mk t1 a1 x1 c1 =>
    cases b with
    | mk t2 a2 x2 c2 =>
      simp [XMLElement.beq, XMLElement.tag, XMLElement.attrib,
        XMLElement.text, XMLElement.childList, Bool.and_eq_true,
        decide_eq_true_iff, and_assoc]

/-- C6: when an element structurally equals the target,
`XMLElement.edits` returns a `Match` of cost 0, whose bounds are the
definitive range `[0, 0]`. -/
theorem C6_edits_match_zero (a b : XMLElement)
    (h : XMLElement.beq a b = true) :
    a.edits b = .matched ⟨a, b, 0⟩ ∧
      MatchEdit.bounds ⟨a, b, 0⟩ = Range.mk 0 0 ∧
      (MatchEdit.bounds ⟨a, b, 0⟩).definitive := by
  refine ⟨?_, rfl, rfl⟩
  simp [XMLElement.edits, h]

/-- Concrete elements used to witness `C6_edits_match_zero`: equal
after stripping their texts. -/
def exC6a : XMLElement := .mk ⟨"x"⟩ [(⟨"k"⟩, ⟨"v"⟩)] (some ⟨" t "⟩) []

def exC6b : XMLElement := .mk ⟨"x"⟩ [(⟨"k"⟩, ⟨"v"⟩)] (some ⟨"t"⟩) []

/-- Witness for C6: `edits` on two equal elements is a zero-cost
`Match`. -/
theorem C6_witness :
    XMLElement.beq exC6a exC6b = true ∧
      exC6a.edits exC6b = .matched ⟨exC6a, exC6b, 0⟩ :=
  ⟨by decide, (C6_edits_match_zero exC6a exC6b (by decide)).1⟩

theorem childrenTotalSize_eq_sum (l : List XMLElement) :
    childrenTotalSize l = (l.map XMLElement.total_size).sum := by
  induction l with
  | nil => rfl
  | cons e es ih =>
    simp [childrenTotalSize, XMLElement.total_size, ih]

/-- C7: the total size of an element is the sum of the total sizes of
its tag, attribute mapping, and child list, plus the size of its text
when present and 0 when absent; the child list's size is the sum over
the children. -/
theorem C7_total_size_sum (e : XMLElement) :
    e.total_size = e.tag.total_size + attribTotalSize e.attrib +
        childrenTotalSize e.childList +
        (match e.text with
         | none => 0
         | some s => s.total_size) ∧
      childrenTotalSize e.childList =
        (e.childList.map XMLElement.total_size).sum := by
  refine ⟨?_, childrenTotalSize_eq_sum _⟩
  cases e with
  | mk t a x c =>
    cases x with
    | none =>
      simp only [XMLElement.total_size, XMLElement.calculate_total_size,
        XMLElement.tag, XMLElement.attrib, XMLElement.text,
        XMLElement.childList]
      omega
    | some s =>
      simp only [XMLElement.total_size, XMLElement.calculate_total_size,
        XMLElement.tag, XMLElement.attrib, XMLElement.text,
        XMLElement.childList]
      omega

/-- C3: the diff driver builds the root edit from the two nodes and
then repeatedly tightens it; every state at which it calls
`tighten_bounds` is valid with non-definitive bounds, the state it
stops at is invalid, definitive, or refuses to tighten, and while none
of the stop conditions holds the loop keeps going. -/
theorem C3_diff_driver (α : Type) (edits_fn : α → α → BEdit) (a b : α) :
    diffDriver edits_fn a b = diffLoop (edits_fn a b) ∧
    (∀ s ∈ diffTrace (edits_fn a b), s.valid = true ∧ ¬ s.cur.definitive) ∧
    ((diffDriver edits_fn a b).valid = false ∨
      (diffDriver edits_fn a b).cur.definitive ∨
      ((diffDriver edits_fn a b).tighten_bounds).1 = false) ∧
    ((edits_fn a b).valid = true → ¬ (edits_fn a b).cur.definitive →
      ((edits_fn a b).tighten_bounds).1 = true →
      diffTrace (edits_fn a b) =
          (edits_fn a b) :: diffTrace ((edits_fn a b).tighten_bounds).2 ∧
        diffDriver edits_fn a b = diffLoop ((edits_fn a b).tighten_bounds).2) :=
  ⟨rfl, diffTrace_mem_aux _ _ rfl, diffLoop_final_aux _ _ rfl,
    fun hv hd ht =>
      ⟨diffTrace_eq_of_true _ ⟨hv, hd⟩ ht, diffLoop_eq_of_true _ ⟨hv, hd⟩ ht⟩⟩

/-- A concrete one-step edit used to witness the driver theorems. -/
def exBEdit0 : BEdit := ⟨true, ⟨0, 1⟩, [⟨1, 1⟩]⟩

/-- Witness for C3: the driver applied to a concrete root edit stops in
a state satisfying a stop condition. -/
theorem C3_witness :
    (diffDriver (fun _ _ : Nat => exBEdit0) 0 0).valid = false ∨
      (diffDriver (fun _ _ : Nat => exBEdit0) 0 0).cur.definitive ∨
      ((diffDriver (fun _ _ : Nat => exBEdit0) 0 0).tighten_bounds).1 = false :=
  (C3_diff_driver Nat (fun _ _ => exBEdit0) 0 0).2.2.1

/-- C4: the tightening loop of the driver terminates — on a
contract-conforming root edit (each `tighten_bounds` strictly narrows
by at least one or returns `false`) whose bounds lie between 0 and
`a.total_size + b.total_size`, the loop calls `tighten_bounds` at most
`a.total_size + b.total_size + 1` times. -/
theorem C4_loop_terminates (a b : XMLElement) (e : BEdit) (hwf : e.WF)
    (hlo : 0 ≤ e.cur.lower_bound)
    (hhi : e.cur.upper_bound ≤ (a.total_size + b.total_size : Int)) :
    (diffTrace e).length ≤ a.total_size + b.total_size + 1 := by
  have h := diffTrace_length_aux e.future.length e rfl hwf
  have hcw := BEdit.cur_WF e hwf
  simp only [Range.WF] at hcw
  omega

/-- Witness for C4: the loop on a concrete root edit between two
concrete single-character elements makes at most three tighten
calls. -/
theorem C4_witness :
    exBEdit0.WF ∧ 0 ≤ exBEdit0.cur.lower_bound ∧
      exBEdit0.cur.upper_bound ≤
        ((XMLElement.mk ⟨"x"⟩ [] none []).total_size +
          (XMLElement.mk ⟨"y"⟩ [] none []).total_size : Int) ∧
      (diffTrace exBEdit0).length ≤
        (XMLElement.mk ⟨"x"⟩ [] none []).total_size +
          (XMLElement.mk ⟨"y"⟩ [] none []).total_size + 1 :=
  ⟨by decide, by decide, by decide,
    C4_loop_terminates (XMLElement.mk ⟨"x"⟩ [] none [])
      (XMLElement.mk ⟨"y"⟩ [] none []) exBEdit0
      (by decide) (by decide) (by decide)⟩

/-- A `TreeNode` as seen by the `total_size` property of `tree.py`: its
immutable payload together with the `_total_size` cache slot, which
starts out as `None`. -/
structure CachedNode (α : Type) where
  data : α
  _total_size : Option Int

/-- The `total_size` property from `tree.py`: on a cache miss compute
`calculate_total_size` (here abstracted as `calculate`) and store it;
afterwards return the stored value.  The access returns the value
together with the possibly updated node. -/
def CachedNode.total_size {α : Type} (calculate : α → Int)
    (n : CachedNode α) : Int × CachedNode α :=
  match n._total_size with
  | none => (calculate n.data, { n with _total_size := some (calculate n.data) })
  | some v => (v, n)

/-- C8: the first access to `total_size` computes `calculate_total_size`
and stores it in the cache slot; a later access — even under a different
compute function, showing nothing is recomputed — returns the same
value and leaves the node unchanged; no field other than the cache slot
is ever modified. -/
theorem C8_total_size_cached (α : Type) (data : α)
    (calculate calculate2 : α → Int) :
    (CachedNode.total_size calculate ⟨data, none⟩).1 = calculate data ∧
    (CachedNode.total_size calculate ⟨data, none⟩).2 =
      ⟨data, some (calculate data)⟩ ∧
    (CachedNode.total_size calculate2
        (CachedNode.total_size calculate ⟨data, none⟩).2).1 =
      (CachedNode.total_size calculate ⟨data, none⟩).1 ∧
    (CachedNode.total_size calculate2
        (CachedNode.total_size calculate ⟨data, none⟩).2).2 =
      (CachedNode.total_size calculate ⟨data, none⟩).2 ∧
    (CachedNode.total_size calculate ⟨data, none⟩).2.data = data :=
  ⟨rfl, rfl, rfl, rfl, rfl⟩

/-- The shape of an edit as seen by `explode_edits` of `tree.py`: a
non-compound edit (identified by a label) or a `CompoundEdit` holding
the ordered list its `edits()` iterator yields. -/
inductive GEdit where
  | atom (id : Nat)
  | compound (subs : List GEdit)
deriving Repr

/-- The `isinstance(edit, CompoundEdit)` test of `explode_edits`. -/
def GEdit.isCompound : GEdit → Bool
  | .atom _ => false
  | .compound _ => true

mutual

/-- `explode_edits` from `tree.py`: a compound edit becomes the
concatenation of the recursive explosions of its sub-edits; any other
edit becomes the one-element sequence holding itself. -/
def explode_edits : GEdit → List GEdit
  | .atom i => [.atom i]
  | .compound subs => explodeList subs

/-- `itertools.chain(*map(explode_edits, edits))`: concatenate the
recursive explosions in order. -/
def explodeList : List GEdit → List GEdit
  | [] => []
  | e :: es => explode_edits e ++ explodeList es

end

theorem explodeList_eq_join_map (l : List GEdit) :
    explodeList l = (l.map explode_edits).flatten := by
  induction l with
  | nil => rfl
  | cons e es ih => simp [explodeList, ih]

mutual

theorem explode_noncompound (e : GEdit) :
    ∀ x ∈ explode_edits e, x.isCompound = false := by
  cases e with
  | atom i =>
    intro x hx
    simp only [explode_edits, List.mem_singleton] at hx
    subst hx
    rfl
  | compound subs =>
    intro x hx
    simp only [explode_edits] at hx
    exact explodeList_noncompound subs x hx

theorem explodeList_noncompound (l : List GEdit) :
    ∀ x ∈ explodeList l, x.isCompound = false := by
  cases l with
  | nil =>
    intro x hx
    simp [explodeList] at hx
  | cons e es =>
    intro x hx
    simp only [explodeList, List.mem_append] at hx
    rcases hx with hx | hx
    · exact explode_noncompound e x hx
    · exact explodeList_noncompound es x hx

end

/-- C9: exploding a non-compound edit yields exactly that edit;
exploding a `CompoundEdit` concatenates, in sub-edit order, the
recursive explosions of its sub-edits; the result contains only
non-compound edits. -/
theorem C9_explode_edits (i : Nat) (l : List GEdit) (e : GEdit) :
    explode_edits (.atom i) = [.atom i] ∧
      explode_edits (.compound l) = (l.map explode_edits).flatten ∧
      (∀ x ∈ explode_edits e, x.isCompound = false) :=
  ⟨rfl, explodeList_eq_join_map l, explode_noncompound e⟩

/-- The three possible text sub-edits of an `XMLElementEdit`: a string
edit between the two texts, an `Insert` of the new text into the source
element, or a `Remove` of the old text from the source element. -/
inductive TextEditChoice where
  | editsText (fromText toText : StringNode)
  | insertText (to_insert : StringNode) (insert_into : XMLElement)
  | removeText (to_remove : StringNode) (remove_from : XMLElement)

/-- The text-edit selection of `XMLElementEdit.__init__` from `xml.py`:
both texts present — edit text against text; only the target has text —
insert it into the source element; only the source has text — remove it
from the source element; neither — no text edit. -/
def xmlTextEditChoice (from_node to_node : XMLElement) :
    Option TextEditChoice :=
  match from_node.text, to_node.text with
  | some ft, some tt => some (.editsText ft tt)
  | none, some tt => some (.insertText tt from_node)
  | some ft, none => some (.removeText ft from_node)
  | none, none => none

/-- C10: the text sub-edit of an `XMLElementEdit` is a text-against-text
edit when both elements have text, an `Insert` of the target's text when
only the target has text, a `Remove` of the source's text when only the
source has text, and absent when neither has text; an absent text edit
contributes `[0, 0]` to `bounds()` and is skipped by `edits()`. -/
theorem C10_text_edit_selection (fn tn : XMLElement) :
    (∀ ft tt, fn.text = some ft → tn.text = some tt →
      xmlTextEditChoice fn tn = some (.editsText ft tt)) ∧
    (∀ tt, fn.text = none → tn.text = some tt →
      xmlTextEditChoice fn tn = some (.insertText tt fn)) ∧
    (∀ ft, fn.text = some ft → tn.text = none →
      xmlTextEditChoice fn tn = some (.removeText ft fn)) ∧
    (fn.text = none → tn.text = none → xmlTextEditChoice fn tn = none) ∧
    (∀ ee : XMLElementEdit, ee.text_edit = none →
      ee.bounds = Range.mk 0 0 + ee.tag_edit.bounds +
          ee.attrib_edit.bounds + ee.child_edit.bounds ∧
        ee.editsList = [ee.tag_edit, ee.attrib_edit, ee.child_edit]) := by
  refine ⟨?_, ?_, ?_, ?_, ?_⟩
  · intro ft tt h1 h2
    simp [xmlTextEditChoice, h1, h2]
  · intro tt h1 h2
    simp [xmlTextEditChoice, h1, h2]
  · intro ft h1 h2
    simp [xmlTextEditChoice, h1, h2]
  · intro h1 h2
    simp [xmlTextEditChoice, h1, h2]
  · intro ee he
    obtain ⟨tag, a, t, c⟩ := ee
    dsimp only at he
    subst he
    exact ⟨rfl, rfl⟩

/-- Witness for C10: two concrete textless elements get no text edit. -/
theorem C10_witness :
    xmlTextEditChoice (XMLElement.mk ⟨"x"⟩ [] none [])
        (XMLElement.mk ⟨"y"⟩ [] none []) = none :=
  (C10_text_edit_selection (XMLElement.mk ⟨"x"⟩ [] none [])
      (XMLElement.mk ⟨"y"⟩ [] none [])).2.2.2.1 rfl rfl

end Graphtage
